import Mathlib

/-!
Shallow embedding of the Sumeragi consensus core (src/core/src/sumeragi),
the `ConstString` primitive (src/primitives/src/conststr.rs), the
reference-counting map deserializer (src/data_model/src/rc_decode.rs) and the
`forbid_bob` runtime validator (src/runtime_validators/forbid_bob/src/lib.rs),
together with theorems settling the specification claims about them.

Machine integers (`u64`, `usize`, `u8`) are modelled as `Nat`; none of the
embedded arithmetic can overflow in the source (lengths of in-memory vectors,
`u8` values kept below 144), so no wrap-around modelling is required.
-/

/-! # Consensus data model

Public keys and hashes are abstract content-carrying values, modelled as `Nat`.
`Signature` keeps only the signer's public key: `verified_signatures()` on a
block already returns only cryptographically valid signatures, so validity is
not re-modelled.
-/

/-- Signer of a (already cryptographically verified) signature,
`iroha_crypto::SignatureOf`: only the public key is observable by the
consensus code under scrutiny (`signature.public_key()`). -/
structure Signature where
  pk : Nat
deriving DecidableEq, Repr

/-- Peer identity: transport address plus public key (spec §3 `PeerId`). -/
structure PeerId where
  address : Nat
  publicKey : Nat
deriving DecidableEq, Repr

/-- Consensus roles (spec §3, `network_topology::Role`). -/
inductive Role where
  | Leader
  | ValidatingPeer
  | ProxyTail
  | ObservingPeer
deriving DecidableEq, Repr

/-- Modelled from the spec: `network_topology::Topology` is not among the
provided sources (only its callers in `fault.rs` are).  Spec §4.1: the topology
is an ordered peer set assigning each peer public key at most one role, with
`max_faults = f` and `min_votes_for_commit = 2f + 1`; `peers_set_a` is the
subset of peers the ProxyTail counts votes from (the `validating_peers`
variable of the vote-counting code). -/
structure Topology where
  roleOf : Nat → Option Role
  maxFaults : Nat
  peersSetA : List PeerId

/-- Modelled from the spec: `min_votes_for_commit = 2f + 1` (spec §3). -/
def Topology.minVotesForCommit (t : Topology) : Nat :=
  2 * t.maxFaults + 1

/-- Modelled from the spec: `filter_signatures_by_roles` returns the signatures
whose signer public key maps to any role in the requested set; signatures by
unknown keys are silently discarded (spec §4.1). -/
def Topology.filterSignaturesByRoles (t : Topology) (roles : List Role)
    (sigs : List Signature) : List Signature :=
  sigs.filter fun s =>
    match t.roleOf s.pk with
    | some r => roles.contains r
    | none => false

/-- Valid block as observed by the `BlockCreated` / `BlockCommitted` handlers:
header fields (`previous_block_hash`, `is_genesis()`, presence of
`genesis_topology`), the block hash, and the set of verified signatures.
The view-change proofs of the header are consumed only through their verified
depth, which the handlers receive from the view-change collaborator; it is
passed to the embedded handlers as an explicit argument. -/
structure Block where
  hash : Nat
  previousBlockHash : Nat
  isGenesis : Bool
  hasGenesisTopology : Bool
  verifiedSignatures : List Signature
deriving DecidableEq, Repr

/-! # BlockCommitted handlers (fault.rs, `run_sumeragi_main_loop`)

Each of the three role branches that handles `BlockCommitted` reduces to a
pure decision: `block_commit` is called iff the branch's guard holds.  The
ObservingPeer branch revalidates the block before inspecting it (fault.rs
653-654); revalidation is an external collaborator and is passed in as a
function.
-/

/-- Leader `BlockCommitted` guard, fault.rs 708-727: quorum over
{ValidatingPeer, Leader, ProxyTail}, exactly one ProxyTail signature, and
previous-hash match. -/
def leaderBlockCommittedCommits (t : Topology) (latestBlockHash : Nat)
    (b : Block) : Bool :=
  let verified := b.verifiedSignatures
  let validSigs :=
    t.filterSignaturesByRoles [Role.ValidatingPeer, Role.Leader, Role.ProxyTail] verified
  let proxyTailSigs := t.filterSignaturesByRoles [Role.ProxyTail] verified
  decide (validSigs.length ≥ t.minVotesForCommit) &&
    proxyTailSigs.length == 1 &&
    latestBlockHash == b.previousBlockHash

/-- ObservingPeer `BlockCommitted` guard, fault.rs 647-677: the block is first
revalidated, then the same three conditions as the Leader branch are checked. -/
def observingPeerBlockCommittedCommits (t : Topology) (latestBlockHash : Nat)
    (revalidate : Block → Block) (b : Block) : Bool :=
  let block := revalidate b
  let verified := block.verifiedSignatures
  let validSigs :=
    t.filterSignaturesByRoles [Role.ValidatingPeer, Role.Leader, Role.ProxyTail] verified
  let proxyTailSigs := t.filterSignaturesByRoles [Role.ProxyTail] verified
  decide (validSigs.length ≥ t.minVotesForCommit) &&
    proxyTailSigs.length == 1 &&
    latestBlockHash == block.previousBlockHash

/-- ValidatingPeer `BlockCommitted` guard, fault.rs 928-946: quorum and
previous-hash match only — this branch computes no ProxyTail signature
filter at all. -/
def validatingPeerBlockCommittedCommits (t : Topology) (latestBlockHash : Nat)
    (b : Block) : Bool :=
  let verified := b.verifiedSignatures
  let validSigs :=
    t.filterSignaturesByRoles [Role.ValidatingPeer, Role.Leader, Role.ProxyTail] verified
  decide (validSigs.length ≥ t.minVotesForCommit) &&
    latestBlockHash == b.previousBlockHash

/-- Concrete four-peer topology for counterexamples and witnesses:
key 0 is the Leader, keys 1 and 2 are ValidatingPeers, key 3 the ProxyTail,
`f = 1`, hence `min_votes_for_commit = 3`. -/
def topologyFour : Topology where
  roleOf k :=
    if k = 0 then some Role.Leader
    else if k = 1 ∨ k = 2 then some Role.ValidatingPeer
    else if k = 3 then some Role.ProxyTail
    else none
  maxFaults := 1
  peersSetA := [⟨10, 1⟩, ⟨20, 2⟩]

/-- Block carrying a Leader and two ValidatingPeer signatures but no
ProxyTail signature, chained to hash 7. -/
def blockNoProxyTailSig : Block where
  hash := 42
  previousBlockHash := 7
  isGenesis := false
  hasGenesisTopology := false
  verifiedSignatures := [⟨0⟩, ⟨1⟩, ⟨2⟩]

/-! # BlockCreated handlers (fault.rs, `run_sumeragi_main_loop`)

The ValidatingPeer (fault.rs 819-927) and ProxyTail (fault.rs 960-1038)
`BlockCreated` handlers are embedded as pure functions from the handler's
observable inputs to its observable effects.  Inputs that are produced by
external collaborators are passed as arguments:

* `blockViewChangeIndex` — the verified depth of the proofs in the block
  header, `block.header().view_change_proofs.verify_with_state(...)`;
* `revalidate` — `block.revalidate(&transaction_validator, &wsv)`;
* `validationCheckOk` — the success of
  `block.validation_check(&mut wsv, &hash, height, &limits)`.

The outcome records keep exactly the effects the handler can produce; a
field is left at its "nothing happened" value when the corresponding
statement is not executed.
-/

/-- Observable effects of the ValidatingPeer `BlockCreated` branch. -/
structure VPBlockCreatedOutcome where
  /-- The branch issued the warning
  `Rejecting block because it is has the wrong view change index.` -/
  warnedWrongIndex : Bool
  /-- The branch adopted the genesis topology from the block header. -/
  adoptedGenesisTopology : Bool
  /-- A `BlockSigned` message was posted to the ProxyTail. -/
  sentBlockSigned : Bool
  /-- Value of `voting_block_option` when the branch finishes. -/
  votingBlock : Option Block
deriving DecidableEq, Repr

/-- ValidatingPeer `BlockCreated` handler, fault.rs 819-927.  The structure of
the source is followed branch for branch: an early `continue` produces the
outcome at that point; note that the wrong-view-change-index test only logs a
warning and falls through, and that `voting_block_option` is assigned after
the sign-or-warn `if` in both of its arms. -/
def validatingPeerOnBlockCreated (votingBlockOpt : Option Block)
    (currentViewChangeIndex blockViewChangeIndex : Nat)
    (t : Topology) (latestBlockHeight : Nat)
    (revalidate : Block → Block) (validationCheckOk : Block → Bool)
    (b : Block) : VPBlockCreatedOutcome :=
  if votingBlockOpt.isSome then
    { warnedWrongIndex := false, adoptedGenesisTopology := false
      sentBlockSigned := false, votingBlock := votingBlockOpt }
  else
    let warned := blockViewChangeIndex != currentViewChangeIndex
    let block := revalidate b
    let adopted := block.isGenesis && latestBlockHeight == 0 && block.hasGenesisTopology
    if (t.filterSignaturesByRoles [Role.Leader] block.verifiedSignatures).isEmpty then
      { warnedWrongIndex := warned, adoptedGenesisTopology := adopted
        sentBlockSigned := false, votingBlock := none }
    else if validationCheckOk block then
      { warnedWrongIndex := warned, adoptedGenesisTopology := adopted
        sentBlockSigned := true, votingBlock := some block }
    else
      { warnedWrongIndex := warned, adoptedGenesisTopology := adopted
        sentBlockSigned := false, votingBlock := some block }

/-- Observable effects of the ProxyTail `BlockCreated` branch. -/
structure PTBlockCreatedOutcome where
  /-- The branch issued the warning
  `Rejecting block because it is has the wrong view change index.` -/
  warnedWrongIndex : Bool
  /-- Value of `block_signature_acc` when the branch finishes. -/
  signatureAcc : List (Nat × Signature)
  /-- Value of `voting_block_option` when the branch finishes. -/
  votingBlock : Option Block
deriving DecidableEq, Repr

/-- ProxyTail `BlockCreated` handler, fault.rs 960-1038: reject when already
voting; warn (only) on wrong view-change index; reject genesis blocks; reject
blocks without a Leader signature; revalidate; push every ValidatingPeer or
Leader signature into the accumulator keyed by the block hash; store the
voting block. -/
def proxyTailOnBlockCreated (votingBlockOpt : Option Block)
    (blockSignatureAcc : List (Nat × Signature))
    (currentViewChangeIndex blockViewChangeIndex : Nat)
    (t : Topology) (revalidate : Block → Block)
    (b : Block) : PTBlockCreatedOutcome :=
  if votingBlockOpt.isSome then
    { warnedWrongIndex := false, signatureAcc := blockSignatureAcc
      votingBlock := votingBlockOpt }
  else
    let warned := blockViewChangeIndex != currentViewChangeIndex
    if b.isGenesis then
      { warnedWrongIndex := warned, signatureAcc := blockSignatureAcc
        votingBlock := none }
    else if (t.filterSignaturesByRoles [Role.Leader] b.verifiedSignatures).isEmpty then
      { warnedWrongIndex := warned, signatureAcc := blockSignatureAcc
        votingBlock := none }
    else
      let block := revalidate b
      let validSigs :=
        t.filterSignaturesByRoles [Role.ValidatingPeer, Role.Leader]
          block.verifiedSignatures
      { warnedWrongIndex := warned
        signatureAcc := blockSignatureAcc ++ validSigs.map fun s => (block.hash, s)
        votingBlock := some block }

/-! # Claims C1, C3: ProxyTail-signature requirements on `BlockCommitted` -/

/-- C3: in the Leader branch of the main loop a received `BlockCommitted`
block is committed if and only if it carries at least `min_votes_for_commit`
signatures filtered by {ValidatingPeer, Leader, ProxyTail}, exactly one
signature filtered by the ProxyTail role, and its `previous_block_hash`
equals the peer's `latest_block_hash`. -/
theorem leader_block_committed_iff (t : Topology) (latestBlockHash : Nat) (b : Block) :
    leaderBlockCommittedCommits t latestBlockHash b = true ↔
      (t.filterSignaturesByRoles [Role.ValidatingPeer, Role.Leader, Role.ProxyTail]
          b.verifiedSignatures).length ≥ t.minVotesForCommit ∧
      (t.filterSignaturesByRoles [Role.ProxyTail] b.verifiedSignatures).length = 1 ∧
      latestBlockHash = b.previousBlockHash := by
  simp [leaderBlockCommittedCommits, and_assoc]

/-- C1 counterexample: the claim "every role branch that handles
`BlockCommitted` commits only if the ProxyTail-filtered signatures number
exactly one" is false: in the four-peer topology the ValidatingPeer branch
commits a block whose ProxyTail-filtered signature count is 0. -/
theorem validating_peer_commits_without_proxy_tail_sig :
    validatingPeerBlockCommittedCommits topologyFour 7 blockNoProxyTailSig = true ∧
      (topologyFour.filterSignaturesByRoles [Role.ProxyTail]
        blockNoProxyTailSig.verifiedSignatures).length ≠ 1 := by
  constructor
  · rfl
  · decide

/-- C1 amended: the Leader and ObservingPeer `BlockCommitted` branches commit
exactly under the quorum, single-ProxyTail-signature and previous-hash
conditions, while the ValidatingPeer branch commits under the quorum and
previous-hash conditions alone, with no ProxyTail-signature-count
requirement. -/
theorem block_committed_handlers_amended (t : Topology) (latestBlockHash : Nat)
    (revalidate : Block → Block) (b : Block) :
    (leaderBlockCommittedCommits t latestBlockHash b = true ↔
      (t.filterSignaturesByRoles [Role.ValidatingPeer, Role.Leader, Role.ProxyTail]
          b.verifiedSignatures).length ≥ t.minVotesForCommit ∧
      (t.filterSignaturesByRoles [Role.ProxyTail] b.verifiedSignatures).length = 1 ∧
      latestBlockHash = b.previousBlockHash) ∧
    (observingPeerBlockCommittedCommits t latestBlockHash revalidate b = true ↔
      (t.filterSignaturesByRoles [Role.ValidatingPeer, Role.Leader, Role.ProxyTail]
          (revalidate b).verifiedSignatures).length ≥ t.minVotesForCommit ∧
      (t.filterSignaturesByRoles [Role.ProxyTail]
          (revalidate b).verifiedSignatures).length = 1 ∧
      latestBlockHash = (revalidate b).previousBlockHash) ∧
    (validatingPeerBlockCommittedCommits t latestBlockHash b = true ↔
      (t.filterSignaturesByRoles [Role.ValidatingPeer, Role.Leader, Role.ProxyTail]
          b.verifiedSignatures).length ≥ t.minVotesForCommit ∧
      latestBlockHash = b.previousBlockHash) := by
  refine ⟨?_, ?_, ?_⟩
  · simp [leaderBlockCommittedCommits, and_assoc]
  · simp [observingPeerBlockCommittedCommits, and_assoc]
  · simp [validatingPeerBlockCommittedCommits]

/-! # Claim C2: wrong view-change index does not reject the block

The source only logs `Rejecting block because it is has the wrong view change
index.` and falls through (fault.rs 839-841, 980-982): there is no `continue`
after the warning, unlike every other rejection in the same handlers.
-/

/-- Block with a Leader signature, used as the `BlockCreated` payload of the
C2 failing input. -/
def blockLeaderSigned : Block where
  hash := 42
  previousBlockHash := 7
  isGenesis := false
  hasGenesisTopology := false
  verifiedSignatures := [⟨0⟩]

/-- C2 failing input: a ValidatingPeer (resp. ProxyTail) with no voting block
and verified view-change index 1 receives a Leader-signed `BlockCreated` whose
header proofs verify to index 0.  Both branches warn about the wrong index and
nevertheless proceed: the ValidatingPeer posts `BlockSigned` and stores the
voting block; the ProxyTail accumulates the block's signatures and stores the
voting block. -/
theorem wrong_view_change_index_not_rejected :
    (validatingPeerOnBlockCreated none 1 0 topologyFour 5 id (fun _ => true)
        blockLeaderSigned =
      { warnedWrongIndex := true, adoptedGenesisTopology := false
        sentBlockSigned := true, votingBlock := some blockLeaderSigned }) ∧
    (proxyTailOnBlockCreated none [] 1 0 topologyFour id blockLeaderSigned =
      { warnedWrongIndex := true
        signatureAcc := [(42, ⟨0⟩)]
        votingBlock := some blockLeaderSigned }) := by
  constructor
  · rfl
  · rfl

/-! # Claim C4: at-most-one-block-in-flight -/

/-- C4: while `voting_block_option` is `Some`, a received `BlockCreated` is
not accepted: both the ValidatingPeer and the ProxyTail handler return
immediately, emitting no warning and no signature, accumulating nothing,
and leaving the stored voting block unchanged. -/
theorem voting_block_guards_block_created (vb : Block)
    (acc : List (Nat × Signature))
    (currentViewChangeIndex blockViewChangeIndex : Nat)
    (t : Topology) (latestBlockHeight : Nat)
    (revalidate : Block → Block) (validationCheckOk : Block → Bool)
    (b : Block) :
    validatingPeerOnBlockCreated (some vb) currentViewChangeIndex
        blockViewChangeIndex t latestBlockHeight revalidate validationCheckOk b =
      { warnedWrongIndex := false, adoptedGenesisTopology := false
        sentBlockSigned := false, votingBlock := some vb } ∧
    proxyTailOnBlockCreated (some vb) acc currentViewChangeIndex
        blockViewChangeIndex t revalidate b =
      { warnedWrongIndex := false, signatureAcc := acc
        votingBlock := some vb } := by
  constructor
  · rfl
  · rfl

/-! # Transaction cache (fault.rs 293-316 and 433-460)

The cache is `Vec<Option<VersionedAcceptedTransaction>>`, embedded as
`List (Option Tx)` over an abstract transaction type `Tx`.  Both compaction
passes run the same two-pointer loop, differing only in the predicate deciding
which entries survive: the per-tick pass keeps entries that are not expired
(fault.rs 433-450), the post-commit pass `cache_transaction` keeps entries
that are neither in the blockchain nor expired (fault.rs 293-316).
`tx.is_expired(ttl)` and `tx.is_in_blockchain(&wsv)` are external
collaborators, passed as predicates.
-/

/-- Body of the two-pointer compaction `while` loop: `r`/`w` are
`read_index`/`write_index`; a `Some` entry is `take`n (its slot set to
`none`), dropped if `keep` rejects it, and otherwise written back at the
write index; the pair returned is the cache and the final `write_index`. -/
def compactStep {Tx : Type} (keep : Tx → Bool) (cache : List (Option Tx))
    (r w : Nat) : List (Option Tx) × Nat :=
  if r < cache.length then
    match cache.getD r none with
    | none => compactStep keep cache (r + 1) w
    | some tx =>
      let taken := cache.set r none
      if keep tx then compactStep keep (taken.set w (some tx)) (r + 1) (w + 1)
      else compactStep keep taken (r + 1) w
  else (cache, w)
termination_by cache.length - r
decreasing_by
  all_goals first
    | omega
    | (simp only [List.length_set]; omega)

/-- Two-pointer compaction followed by `truncate(write_index)`. -/
def compactCache {Tx : Type} (keep : Tx → Bool) (cache : List (Option Tx)) :
    List (Option Tx) :=
  let res := compactStep keep cache 0 0
  res.1.take res.2

/-- Per-tick compaction pass (fault.rs 433-450): prune expired transactions
only. -/
def tickCompact {Tx : Type} (isExpired : Tx → Bool)
    (cache : List (Option Tx)) : List (Option Tx) :=
  compactCache (fun tx => !isExpired tx) cache

/-- Post-commit compaction `cache_transaction` (fault.rs 293-316): prune
transactions that are in the blockchain or expired. -/
def cache_transaction {Tx : Type} (isInBlockchain isExpired : Tx → Bool)
    (cache : List (Option Tx)) : List (Option Tx) :=
  compactCache (fun tx => !(isInBlockchain tx || isExpired tx)) cache

/-- Cache fill loop (fault.rs 452-459): while the cache length is strictly
below `txs_in_block`, pop from the queue (modelled as the list of
transactions `pop_without_seen` will yield, in order) and push the popped
`Option` onto the cache; stop when the queue yields `None`. -/
def cacheFill {Tx : Type} (txsInBlock : Nat) :
    List Tx → List (Option Tx) → List (Option Tx)
  | queue, cache =>
    if cache.length < txsInBlock then
      match queue with
      | [] => cache
      | tx :: rest => cacheFill txsInBlock rest (cache ++ [some tx])
    else cache

/-! # Compaction and fill lemmas (claims C6, C7) -/

/-- Reading at the boundary of an append yields the head of the suffix. -/
lemma getD_boundary {Tx : Type} (A : List (Option Tx)) (hd : Option Tx)
    (tl : List (Option Tx)) :
    (A ++ hd :: tl).getD A.length none = hd := by
  induction A with
  | nil => rfl
  | cons a as ih => simpa [List.getD_cons_succ] using ih

/-- Writing at the boundary of an append replaces the head of the suffix. -/
lemma set_boundary {Tx : Type} (A : List (Option Tx)) (hd a : Option Tx)
    (tl : List (Option Tx)) :
    (A ++ hd :: tl).set A.length a = A ++ a :: tl := by
  rw [List.set_append_right _ _ (Nat.le_refl _)]
  simp

/-- Loop invariant of the two-pointer compaction: when the cache splits as a
fully-written prefix `out.map some`, a stretch of already-consumed slots
`junk`, and the unprocessed suffix `rest` (with the read index at the start of
`rest` and the write index at the end of the prefix), the loop ends with
write index `out.length + |kept entries of rest|` and the corresponding
prefix `(out ++ kept entries of rest).map some`. -/
lemma compactStep_spec {Tx : Type} (keep : Tx → Bool) :
    ∀ (rest : List (Option Tx)) (out : List Tx) (junk : List (Option Tx)),
      ∃ junk2 : List (Option Tx),
        compactStep keep ((out.map some ++ junk) ++ rest)
            (out.length + junk.length) out.length =
          ((out ++ (rest.filterMap id).filter keep).map some ++ junk2,
            out.length + ((rest.filterMap id).filter keep).length) := by
  intro rest
  induction rest with
  | nil =>
    intro out junk
    refine ⟨junk, ?_⟩
    rw [compactStep]
    simp
  | cons hd tl ih =>
    intro out junk
    have hA : (out.map some ++ junk).length = out.length + junk.length := by simp
    have hr : out.length + junk.length < ((out.map some ++ junk) ++ hd :: tl).length := by
      simp
    have hget : ((out.map some ++ junk) ++ hd :: tl).getD (out.length + junk.length) none = hd := by
      rw [← hA, getD_boundary]
    cases hd with
    | none =>
      rw [compactStep, if_pos hr, hget]
      have h1 : (out.map some ++ junk) ++ none :: tl
          = (out.map some ++ (junk ++ [none])) ++ tl := by simp
      have h2 : out.length + junk.length + 1 = out.length + (junk ++ [none]).length := by
        simp
        omega
      rw [h1, h2]
      obtain ⟨junk2, hj⟩ := ih out (junk ++ [none])
      refine ⟨junk2, ?_⟩
      rw [hj]
      simp
    | some tx =>
      rw [compactStep, if_pos hr, hget]
      simp only
      have hset1 : ((out.map some ++ junk) ++ some tx :: tl).set (out.length + junk.length) none
          = (out.map some ++ junk) ++ none :: tl := by
        rw [← hA, set_boundary]
      by_cases hk : keep tx
      · rw [hk]
        simp only [if_true, hset1]
        have hsetw : ((out.map some ++ junk) ++ none :: tl).set out.length (some tx)
            = ((out ++ [tx]).map some
                ++ (junk.drop 1 ++ (junk.take 1).map (fun _ => (none : Option Tx)))) ++ tl := by
          cases junk with
          | nil =>
            have h := set_boundary (out.map some) none (some tx) tl
            rw [List.length_map] at h
            simpa using h
          | cons j js =>
            have h : (out.map some ++ (j :: (js ++ none :: tl))).set (out.map some).length (some tx)
                = out.map some ++ (some tx :: (js ++ none :: tl)) :=
              set_boundary (out.map some) j (some tx) (js ++ none :: tl)
            rw [List.length_map] at h
            calc ((out.map some ++ j :: js) ++ none :: tl).set out.length (some tx)
                = (out.map some ++ (j :: (js ++ none :: tl))).set out.length (some tx) := by simp
              _ = out.map some ++ (some tx :: (js ++ none :: tl)) := h
              _ = _ := by simp
        rw [hsetw]
        have hlen2 : out.length + junk.length + 1
            = (out ++ [tx]).length
              + (junk.drop 1 ++ (junk.take 1).map (fun _ => (none : Option Tx))).length := by
          cases junk <;> simp <;> omega
        have hlenw : out.length + 1 = (out ++ [tx]).length := by simp
        rw [hlen2, hlenw]
        obtain ⟨junk2, hj⟩ :=
          ih (out ++ [tx]) (junk.drop 1 ++ (junk.take 1).map (fun _ => (none : Option Tx)))
        refine ⟨junk2, ?_⟩
        rw [hj]
        have hfil : ((some tx :: tl).filterMap id).filter keep
            = tx :: (tl.filterMap id).filter keep := by
          simp [List.filterMap_cons, List.filter_cons, hk]
        rw [hfil]
        simp
        omega
      · rw [if_neg (by simp [hk])]
        simp only [hset1]
        have h1 : (out.map some ++ junk) ++ none :: tl
            = (out.map some ++ (junk ++ [none])) ++ tl := by simp
        have h2 : out.length + junk.length + 1 = out.length + (junk ++ [none]).length := by
          simp
          omega
        rw [h1, h2]
        obtain ⟨junk2, hj⟩ := ih out (junk ++ [none])
        refine ⟨junk2, ?_⟩
        rw [hj]
        have hfil : ((some tx :: tl).filterMap id).filter keep
            = (tl.filterMap id).filter keep := by
          simp [List.filterMap_cons, List.filter_cons, hk]
        rw [hfil]

/-- The full compaction pass (loop plus `truncate`) computes exactly the
in-order filter of the present entries, with every surviving slot `some`. -/
lemma compactCache_eq_filter {Tx : Type} (keep : Tx → Bool)
    (cache : List (Option Tx)) :
    compactCache keep cache = ((cache.filterMap id).filter keep).map some := by
  obtain ⟨junk2, hj⟩ := compactStep_spec keep cache [] []
  simp only [List.map_nil, List.nil_append, List.append_nil, List.length_nil,
    Nat.zero_add] at hj
  unfold compactCache
  rw [hj]
  simp only
  rw [← List.length_map ((cache.filterMap id).filter keep) some]
  exact List.take_left _ _

/-- Filling never grows the cache past `txs_in_block` when it starts at or
below that bound. -/
lemma cacheFill_length_le {Tx : Type} (txsInBlock : Nat) :
    ∀ (queue : List Tx) (cache : List (Option Tx)),
      cache.length ≤ txsInBlock →
      (cacheFill txsInBlock queue cache).length ≤ txsInBlock := by
  intro queue
  induction queue with
  | nil =>
    intro cache h
    rw [cacheFill]
    split
    · exact h
    · exact h
  | cons tx rest ih =>
    intro cache h
    rw [cacheFill]
    split
    · rename_i hlt
      exact ih (cache ++ [some tx]) (by simp; omega)
    · exact h

/-! # Claim C6: cache bound -/

/-- C6: the transaction cache never exceeds `txs_in_block` entries at the end
of a main-loop iteration: starting from a cache within the bound, the
per-tick compaction followed by the fill step stays within the bound, and
each of the two compaction passes can only shrink the cache. -/
theorem transaction_cache_bound {Tx : Type} (isExpired isInBlockchain : Tx → Bool)
    (txsInBlock : Nat) (cache : List (Option Tx)) (queue : List Tx)
    (h : cache.length ≤ txsInBlock) :
    (cacheFill txsInBlock queue (tickCompact isExpired cache)).length ≤ txsInBlock ∧
    (tickCompact isExpired cache).length ≤ cache.length ∧
    (cache_transaction isInBlockchain isExpired cache).length ≤ cache.length := by
  have hshrink : ∀ keep : Tx → Bool, (compactCache keep cache).length ≤ cache.length := by
    intro keep
    rw [compactCache_eq_filter]
    calc (((cache.filterMap id).filter keep).map some).length
        = ((cache.filterMap id).filter keep).length := List.length_map _ _
      _ ≤ (cache.filterMap id).length := List.length_filter_le _ _
      _ ≤ cache.length := List.length_filterMap_le _ _
  refine ⟨?_, hshrink _, hshrink _⟩
  exact cacheFill_length_le txsInBlock queue _ (le_trans (hshrink _) h)

/-- C6 witness: a concrete two-slot cache with bound 2 and a three-element
queue stays within the bound. -/
theorem transaction_cache_bound_witness :
    ([some 1, some 4] : List (Option Nat)).length ≤ 2 ∧
    ((cacheFill 2 [5, 6, 7] (tickCompact (fun n => n % 2 == 0) [some 1, some 4])).length ≤ 2 ∧
     (tickCompact (fun n => n % 2 == 0) [some 1, some 4]).length ≤ 2 ∧
     (cache_transaction (fun n => decide (4 ≤ n)) (fun n => n % 2 == 0)
        [some 1, some 4]).length ≤ 2) :=
  ⟨by decide,
   transaction_cache_bound (fun n => n % 2 == 0) (fun n => decide (4 ≤ n)) 2
     [some 1, some 4] [5, 6, 7] (by decide)⟩

/-! # Claim C7: compaction is order-preserving in-place filtering -/

/-- C7: both compaction passes are order-preserving filters: the per-tick
pass leaves exactly the non-expired entries, in their original relative
order and with no `none` slot remaining, and `cache_transaction` leaves
exactly the entries that are neither in the blockchain nor expired,
likewise in order and with no `none` slot. -/
theorem cache_compaction_is_ordered_filter {Tx : Type}
    (isExpired isInBlockchain : Tx → Bool) (cache : List (Option Tx)) :
    tickCompact isExpired cache
      = (((cache.filterMap id).filter fun tx => !isExpired tx).map some) ∧
    cache_transaction isInBlockchain isExpired cache
      = (((cache.filterMap id).filter fun tx => !(isInBlockchain tx || isExpired tx)).map some) :=
  ⟨compactCache_eq_filter _ cache, compactCache_eq_filter _ cache⟩

/-! # ProxyTail vote counting (fault.rs 1070-1099, claim C5)

The vote-counting block filters the signature accumulator down to the
signatures on the voting block, then counts one vote per validating peer
(`peers_set_a`) using the `peer_has_voted` bit vector; the inner `for` loop
with its `break` is the first-match search embedded as `findIdx?`.
-/

/-- Inner vote-counting loop (fault.rs 1083-1097): state is
`(vote_count, peer_has_voted, peer_signatures)`; each signature is matched
against the first validating peer with the same public key (`break` after the
first hit), and counted only when that peer has not voted yet. -/
def voteLoop (validatingPeers : List PeerId) :
    List Signature → List Bool → Nat → List Signature →
      Nat × List Bool × List Signature
  | [], voted, voteCount, peerSignatures => (voteCount, voted, peerSignatures)
  | s :: rest, voted, voteCount, peerSignatures =>
    match validatingPeers.findIdx? (fun p => s.pk == p.publicKey) with
    | none => voteLoop validatingPeers rest voted voteCount peerSignatures
    | some i =>
      if voted.getD i false then
        voteLoop validatingPeers rest voted voteCount peerSignatures
      else
        voteLoop validatingPeers rest (voted.set i true) (voteCount + 1)
          (peerSignatures ++ [s])

lemma getD_replicate_false (n j : Nat) : (List.replicate n false).getD j false = false := by
  simp [List.getD_eq_getElem?_getD, List.getElem?_replicate]
  split <;> simp

lemma getD_mem {α : Type} : ∀ (l : List α) (j : Nat) (d : α), j < l.length → l.getD j d ∈ l := by
  intro l
  induction l with
  | nil => intro j d h; simp at h
  | cons a as ih =>
    intro j d h
    cases j with
    | zero => simp
    | succ m =>
      rw [List.getD_cons_succ]
      exact List.mem_cons_of_mem _ (ih m d (by simpa using h))

lemma map_getD_range {α : Type} (dflt : α) :
    ∀ (xs : List α), (List.range xs.length).map (fun j => xs.getD j dflt) = xs := by
  intro xs
  induction xs with
  | nil => rfl
  | cons a as ih =>
    show (List.range (as.length + 1)).map _ = _
    rw [List.range_succ_eq_map, List.map_cons, List.map_map, List.getD_cons_zero]
    have hcomp : (fun j => (a :: as).getD j dflt) ∘ (· + 1) = fun j => as.getD j dflt := by
      funext j
      simp [List.getD_cons_succ]
    rw [hcomp, ih]

lemma any_congr {α : Type} {f g : α → Bool} :
    ∀ l : List α, (∀ x ∈ l, f x = g x) → l.any f = l.any g := by
  intro l
  induction l with
  | nil => intro _; rfl
  | cons a as ih =>
    intro h
    simp only [List.any_cons]
    rw [h a (by simp), ih (fun x hx => h x (by simp [hx]))]

lemma findIdx?_some_facts {α : Type} (p : α → Bool) :
    ∀ (l : List α) (i : Nat), l.findIdx? p = some i →
      i < l.length ∧ ∀ d, p (l.getD i d) = true := by
  intro l
  induction l with
  | nil => intro i h; simp [List.findIdx?] at h
  | cons x xs ih =>
    intro i h
    rw [List.findIdx?_cons] at h
    by_cases hp : p x
    · simp [hp] at h
      subst h
      exact ⟨by simp, fun d => by simpa using hp⟩
    · simp [hp] at h
      cases i with
      | zero => simp at h
      | succ j =>
        obtain ⟨k, hk, hkj⟩ := h
        have hkeq : k = j := by omega
        rw [hkeq] at hk
        refine ⟨by simpa using (ih j hk).1, fun d => ?_⟩
        simpa [List.getD_cons_succ] using (ih j hk).2 d

/-- When the peer public keys are pairwise distinct, the first-match index of
`findIdx?` coincides with plain positional key comparison. -/
lemma findIdx?_beq_key (k : Nat) (dflt : PeerId) :
    ∀ (l : List PeerId), (l.map PeerId.publicKey).Nodup →
      ∀ j, j < l.length →
      ((l.findIdx? (fun p => k == p.publicKey) == some j)
        = (k == (l.getD j dflt).publicKey)) := by
  intro l
  induction l with
  | nil => intro _ j hj; simp at hj
  | cons x xs ih =>
    intro hnd j hj
    have hnd' : x.publicKey ∉ xs.map PeerId.publicKey ∧ (xs.map PeerId.publicKey).Nodup := by
      rw [List.map_cons, List.nodup_cons] at hnd
      exact hnd
    rw [List.findIdx?_cons]
    by_cases hk : (k == x.publicKey) = true
    · rw [if_pos hk]
      cases j with
      | zero => simp [hk]
      | succ m =>
        have hm : m < xs.length := by simpa using hj
        have hkx : k = x.publicKey := by simpa using hk
        have hne : (k == (xs.getD m dflt).publicKey) = false := by
          apply beq_eq_false_iff_ne.mpr
          intro he
          apply hnd'.1
          rw [hkx] at he
          rw [he]
          exact List.mem_map_of_mem _ (getD_mem xs m dflt hm)
        rw [List.getD_cons_succ, hne]
        simp
    · rw [if_neg hk]
      have hkf : (k == x.publicKey) = false := by simpa using hk
      cases j with
      | zero =>
        rw [List.getD_cons_zero, hkf]
        cases hx : xs.findIdx? (fun p => k == p.publicKey) <;> simp [hx]
      | succ m =>
        have hm : m < xs.length := by simpa using hj
        rw [List.getD_cons_succ, ← ih hnd'.2 m hm]
        cases hx : xs.findIdx? (fun p => k == p.publicKey) <;> simp [hx]

lemma voteLoop_count (peers : List PeerId) :
    ∀ (sigs : List Signature) (voted : List Bool) (c : Nat) (ps : List Signature),
      voted.length = peers.length →
      (voteLoop peers sigs voted c ps).1
        = c + (List.range peers.length).countP
            (fun j => !voted.getD j false
              && sigs.any fun t => peers.findIdx? (fun p => t.pk == p.publicKey) == some j) := by
  intro sigs
  induction sigs with
  | nil =>
    intro voted c ps hlen
    simp [voteLoop]
  | cons s rest ih =>
    intro voted c ps hlen
    cases h : peers.findIdx? (fun p => s.pk == p.publicKey) with
    | none =>
      simp only [voteLoop, h]
      rw [ih voted c ps hlen]
      congr 1
      apply List.countP_congr
      intro j hj
      have hs : (peers.findIdx? (fun p => s.pk == p.publicKey) == some j) = false := by
        rw [h]
        rfl
      simp [List.any_cons, hs]
    | some i =>
      simp only [voteLoop, h]
      by_cases hv : voted.getD i false
      · rw [if_pos hv]
        rw [ih voted c ps hlen]
        congr 1
        apply List.countP_congr
        intro j hj
        by_cases hji : j = i
        · subst hji
          have hv2 : voted[j]?.getD false = true := by
            rw [← List.getD_eq_getElem?_getD]
            exact hv
          simp [hv2]
        · have hs : (peers.findIdx? (fun p => s.pk == p.publicKey) == some j) = false := by
            rw [h]
            simp
            omega
          simp [List.any_cons, hs]
      · rw [if_neg hv]
        have hi : i < peers.length := (findIdx?_some_facts _ peers i h).1
        have hlen2 : (voted.set i true).length = peers.length := by
          simp [hlen]
        rw [ih (voted.set i true) (c + 1) (ps ++ [s]) hlen2]
        have hsplit : List.range peers.length
            = (List.range i ++ [i]) ++ (List.range (peers.length - i - 1)).map ((i + 1) + ·) := by
          rw [← List.range_succ]
          rw [← List.range_add]
          congr 1
          omega
        have hsj : (peers.findIdx? (fun p => s.pk == p.publicKey) == some i) = true := by
          rw [h]
          exact beq_self_eq_true _
        have hfar : ∀ j, j ≠ i →
            ((!voted.getD j false
              && (s :: rest).any fun t => peers.findIdx? (fun p => t.pk == p.publicKey) == some j)
             = (!(voted.set i true).getD j false
              && rest.any fun t => peers.findIdx? (fun p => t.pk == p.publicKey) == some j)) := by
          intro j hji
          have hs : (peers.findIdx? (fun p => s.pk == p.publicKey) == some j) = false := by
            rw [h]
            simp
            omega
          have hset : (voted.set i true).getD j false = voted.getD j false := by
            simp [List.getD_eq_getElem?_getD, List.getElem?_set_ne (Ne.symm hji)]
          rw [List.any_cons, hs, Bool.false_or, hset]
        rw [hsplit]
        rw [List.countP_append, List.countP_append, List.countP_append, List.countP_append]
        have hleft : (List.range i).countP
              (fun j => !voted.getD j false
                && (s :: rest).any fun t => peers.findIdx? (fun p => t.pk == p.publicKey) == some j)
            = (List.range i).countP
              (fun j => !(voted.set i true).getD j false
                && rest.any fun t => peers.findIdx? (fun p => t.pk == p.publicKey) == some j) := by
          apply List.countP_congr
          intro j hj
          have : j < i := List.mem_range.mp hj
          rw [hfar j (by omega)]
        have hmid1 : ([i].countP
              (fun j => !voted.getD j false
                && (s :: rest).any fun t => peers.findIdx? (fun p => t.pk == p.publicKey) == some j))
            = 1 := by
          have hvf : voted[i]?.getD false = false := by
            rw [← List.getD_eq_getElem?_getD]
            revert hv
            cases voted.getD i false <;> simp
          simp [List.countP_cons, List.any_cons, hsj, hvf]
        have hmid2 : ([i].countP
              (fun j => !(voted.set i true).getD j false
                && rest.any fun t => peers.findIdx? (fun p => t.pk == p.publicKey) == some j))
            = 0 := by
          have hset : (voted.set i true)[i]?.getD false = true := by
            simp [List.getElem?_set_eq_of_lt true (hlen ▸ hi)]
          simp [List.countP_cons, hset]
        have hright : ((List.range (peers.length - i - 1)).map ((i + 1) + ·)).countP
              (fun j => !voted.getD j false
                && (s :: rest).any fun t => peers.findIdx? (fun p => t.pk == p.publicKey) == some j)
            = ((List.range (peers.length - i - 1)).map ((i + 1) + ·)).countP
              (fun j => !(voted.set i true).getD j false
                && rest.any fun t => peers.findIdx? (fun p => t.pk == p.publicKey) == some j) := by
          apply List.countP_congr
          intro j hj
          have : ∃ m, m ∈ List.range (peers.length - i - 1) ∧ (i + 1) + m = j := by
            simpa using hj
          obtain ⟨m, _, hm⟩ := this
          rw [hfar j (by omega)]
        rw [hleft, hmid1, hmid2, hright]
        omega

lemma voteLoop_distinct (peers : List PeerId)
    (hnd : (peers.map PeerId.publicKey).Nodup) (sigs : List Signature) :
    (voteLoop peers sigs (List.replicate peers.length false) 0 []).1
      = ((peers.map PeerId.publicKey).filter
          (fun k => sigs.any fun t => t.pk == k)).length := by
  rw [voteLoop_count peers sigs _ 0 [] (by simp)]
  have h1 : (List.range peers.length).countP
        (fun j => !(List.replicate peers.length false).getD j false
          && sigs.any fun t => peers.findIdx? (fun p => t.pk == p.publicKey) == some j)
      = (List.range peers.length).countP
        (fun j => sigs.any fun t => t.pk == (peers.getD j ⟨0, 0⟩).publicKey) := by
    apply List.countP_congr
    intro j hj
    have hjlt : j < peers.length := List.mem_range.mp hj
    have h2 : (sigs.any fun t => peers.findIdx? (fun p => t.pk == p.publicKey) == some j)
        = (sigs.any fun t => t.pk == (peers.getD j ⟨0, 0⟩).publicKey) := by
      apply any_congr
      intro t _
      exact findIdx?_beq_key t.pk ⟨0, 0⟩ peers hnd j hjlt
    rw [getD_replicate_false, h2]
    simp
  rw [h1]
  have h3 : (List.range peers.length).countP
        (fun j => sigs.any fun t => t.pk == (peers.getD j ⟨0, 0⟩).publicKey)
      = peers.countP (fun p => sigs.any fun t => t.pk == p.publicKey) := by
    conv_rhs => rw [← map_getD_range ⟨0, 0⟩ peers]
    rw [List.countP_map]
    rfl
  have h4 : peers.countP (fun p => sigs.any fun t => t.pk == p.publicKey)
      = (peers.map PeerId.publicKey).countP (fun k => sigs.any fun t => t.pk == k) := by
    rw [List.countP_map]
    rfl
  rw [h3, h4, List.countP_eq_length_filter]
  omega

/-- Signatures accumulated for the voting block (fault.rs 1074-1081): the
pairs in `block_signature_acc` whose stored hash equals the voting block's
hash. -/
def signaturesOnBlock (blockSignatureAcc : List (Nat × Signature))
    (votingBlockHash : Nat) : List Signature :=
  (blockSignatureAcc.filter fun p => p.1 == votingBlockHash).map Prod.snd

/-- The ProxyTail's vote count (fault.rs 1083-1099): result of the counting
loop, starting from an all-false `peer_has_voted` vector, plus one for the
ProxyTail's own vote. -/
def proxyTailVoteCount (t : Topology) (blockSignatureAcc : List (Nat × Signature))
    (votingBlockHash : Nat) : Nat :=
  (voteLoop t.peersSetA (signaturesOnBlock blockSignatureAcc votingBlockHash)
    (List.replicate t.peersSetA.length false) 0 []).1 + 1

/-- The quorum test of fault.rs 1100:
`vote_count >= current_topology.min_votes_for_commit()`. -/
def proxyTailQuorumReached (t : Topology) (blockSignatureAcc : List (Nat × Signature))
    (votingBlockHash : Nat) : Bool :=
  decide (proxyTailVoteCount t blockSignatureAcc votingBlockHash ≥ t.minVotesForCommit)

/-! # Claim C5: no double counting of validator votes -/

/-- C5: when the validating peers have pairwise distinct public keys, the
ProxyTail's vote count over any accumulator (duplicates included) equals one
— its own vote — plus the number of distinct validating-peer public keys
with a signature on the voting block, and the quorum test succeeds exactly
when that count reaches `min_votes_for_commit`. -/
theorem proxy_tail_no_double_counting (t : Topology)
    (blockSignatureAcc : List (Nat × Signature)) (votingBlockHash : Nat)
    (hnd : (t.peersSetA.map PeerId.publicKey).Nodup) :
    proxyTailVoteCount t blockSignatureAcc votingBlockHash
      = 1 + ((t.peersSetA.map PeerId.publicKey).filter
          (fun k => (signaturesOnBlock blockSignatureAcc votingBlockHash).any
            fun s => s.pk == k)).length ∧
    (proxyTailQuorumReached t blockSignatureAcc votingBlockHash = true ↔
      t.minVotesForCommit
        ≤ 1 + ((t.peersSetA.map PeerId.publicKey).filter
            (fun k => (signaturesOnBlock blockSignatureAcc votingBlockHash).any
              fun s => s.pk == k)).length) := by
  have hcount := voteLoop_distinct t.peersSetA hnd
    (signaturesOnBlock blockSignatureAcc votingBlockHash)
  constructor
  · simp only [proxyTailVoteCount, hcount]
    omega
  · simp only [proxyTailQuorumReached, proxyTailVoteCount, hcount]
    rw [decide_eq_true_iff]
    omega

/-- C5 witness: two accumulated signatures from the same validator key plus
one entry for a different block hash yield a vote count of 2 in the four-peer
topology, short of the quorum of 3. -/
theorem proxy_tail_no_double_counting_witness :
    (topologyFour.peersSetA.map PeerId.publicKey).Nodup ∧
    (proxyTailVoteCount topologyFour [(42, ⟨1⟩), (42, ⟨1⟩), (99, ⟨2⟩)] 42
        = 1 + ((topologyFour.peersSetA.map PeerId.publicKey).filter
            (fun k => (signaturesOnBlock [(42, ⟨1⟩), (42, ⟨1⟩), (99, ⟨2⟩)] 42).any
              fun s => s.pk == k)).length ∧
      (proxyTailQuorumReached topologyFour [(42, ⟨1⟩), (42, ⟨1⟩), (99, ⟨2⟩)] 42 = true ↔
        topologyFour.minVotesForCommit
          ≤ 1 + ((topologyFour.peersSetA.map PeerId.publicKey).filter
              (fun k => (signaturesOnBlock [(42, ⟨1⟩), (42, ⟨1⟩), (99, ⟨2⟩)] 42).any
                fun s => s.pk == k)).length)) :=
  ⟨by decide,
   proxy_tail_no_double_counting topologyFour [(42, ⟨1⟩), (42, ⟨1⟩), (99, ⟨2⟩)] 42
     (by decide)⟩

/-! # ConstString (src/primitives/src/conststr.rs, claim C8)

Strings are embedded as their UTF-8 byte sequences (`List Nat`, each entry a
byte value).  The target is a 64-bit little-endian architecture, so
`size_of::<usize>() = 8` and `MAX_INLINED_STRING_LEN = 2 * 8 - 1 = 15`.

The Rust `ConstString` is a union tagged through the most significant bit of
the byte at offset 15: that byte is `InlinedString.len` (kept `≥ 128` by
construction) for the inlined variant, and the most significant byte of the
little-endian `ArcString.len : usize` for the reference-counted variant.  The
union is embedded as an inductive with one constructor per variant, and
`is_inlined` reads, in each variant, exactly the byte the Rust tag check
reads: for the reference-counted variant that is `len / 2^56 % 256`, which
stays below 128 whenever `len < 2^63` (Rust allocations never exceed
`isize::MAX` bytes, which is what the source's layout comment relies on). -/

/-- Value of `MAX_INLINED_STRING_LEN` on a 64-bit architecture. -/
def MAX_INLINED_STRING_LEN : Nat := 2 * 8 - 1

/-- Inlined variant: 15 payload bytes and the `len` byte whose MSB is set. -/
structure InlinedString where
  payload : List Nat
  len : Nat
deriving DecidableEq, Repr

/-- Value of `InlinedString::len()`: `(self.len - 128) as usize`. -/
def InlinedString.length (s : InlinedString) : Nat := s.len - 128

/-- Value of `InlinedString::is_inlined()`: the MSB of the `len` byte. -/
def InlinedString.isInlinedByte : Nat → Bool := fun b => decide (b ≥ 128)

/-- Value of `InlinedString::new()`: zeroed payload, `len = 128`. -/
def InlinedString.new : InlinedString :=
  { payload := List.replicate MAX_INLINED_STRING_LEN 0, len := 128 }

/-- Rust `<InlinedString as TryFrom<&str>>::try_from`: reject byte strings
longer than `MAX_INLINED_STRING_LEN`; otherwise copy the bytes into the
zeroed payload of `new()` and add the length to the tagged `len` byte. -/
def InlinedString.tryFrom (value : List Nat) : Except (List Nat) InlinedString :=
  if value.length > MAX_INLINED_STRING_LEN then
    Except.error value
  else
    Except.ok
      { payload := value ++ List.replicate (MAX_INLINED_STRING_LEN - value.length) 0
        len := InlinedString.new.len + value.length }

/-- Rust `<InlinedString as AsRef<str>>::as_ref`: the first `len()` payload
bytes. -/
def InlinedString.asStr (s : InlinedString) : List Nat :=
  s.payload.take s.length

/-- Reference-counted variant: the `ArcStr` contents and the cached byte
length. -/
structure ArcString where
  arc : List Nat
  len : Nat
deriving DecidableEq, Repr

/-- Rust `<ArcString as From<&str>>::from`. -/
def ArcString.fromBytes (value : List Nat) : ArcString :=
  { arc := value, len := value.length }

/-- Rust `<ArcString as AsRef<str>>::as_ref`. -/
def ArcString.asStr (s : ArcString) : List Nat := s.arc

/-- The `ConstString` union, one constructor per variant. -/
inductive ConstString where
  | inlined (s : InlinedString)
  | refCounted (s : ArcString)
deriving DecidableEq, Repr

/-- Rust `ConstString::is_inlined()`: read the byte at offset 15 and test its
MSB.  For the inlined variant that byte is `InlinedString.len`; for the
reference-counted variant it is the top byte of the little-endian
`ArcString.len`. -/
def ConstString.is_inlined : ConstString → Bool
  | .inlined s => InlinedString.isInlinedByte s.len
  | .refCounted s => InlinedString.isInlinedByte (s.len / 2 ^ 56 % 256)

/-- Rust `<T as Into<ConstString>>`: try the inlined representation first and
fall back to the reference-counted one (conststr.rs 207-221). -/
def ConstString.fromBytes (value : List Nat) : ConstString :=
  match InlinedString.tryFrom value with
  | Except.ok istr => ConstString.inlined istr
  | Except.error v => ConstString.refCounted (ArcString.fromBytes v)

/-- Rust `<ConstString as AsRef<str>>::as_ref` / `Deref`: dispatch on the
variant (the source dispatches on `is_inlined()`, which the theorem below
proves agrees with the variant for every value built by `fromBytes`). -/
def ConstString.asStr : ConstString → List Nat
  | .inlined s => s.asStr
  | .refCounted s => s.asStr

/-! # Claim C8: `ConstString` round trip and inlining bound -/

/-- C8: for every byte string (of realistic length, below `isize::MAX`),
converting to `ConstString` and dereferencing returns the same bytes, and the
result is inlined exactly when the length is at most
`MAX_INLINED_STRING_LEN = 15`. -/
theorem const_string_roundtrip_inlined (value : List Nat)
    (hlen : value.length < 2 ^ 63) :
    (ConstString.fromBytes value).asStr = value ∧
    ((ConstString.fromBytes value).is_inlined = true ↔
      value.length ≤ MAX_INLINED_STRING_LEN) := by
  have hmax : MAX_INLINED_STRING_LEN = 15 := rfl
  have hnewlen : InlinedString.new.len = 128 := rfl
  by_cases h : value.length > MAX_INLINED_STRING_LEN
  · have hif : InlinedString.tryFrom value = Except.error value := by
      unfold InlinedString.tryFrom
      rw [if_pos h]
    have hfrom : ConstString.fromBytes value
        = ConstString.refCounted (ArcString.fromBytes value) := by
      unfold ConstString.fromBytes
      rw [hif]
    rw [hfrom]
    constructor
    · rfl
    · rw [ConstString.is_inlined]
      have hp56 : (2 : Nat) ^ 56 = 72057594037927936 := by norm_num
      have hp63 : (2 : Nat) ^ 63 = 9223372036854775808 := by norm_num
      rw [hp63] at hlen
      have harc : (ArcString.fromBytes value).len = value.length := rfl
      have htop : (ArcString.fromBytes value).len / 2 ^ 56 % 256 < 128 := by
        rw [harc, hp56]
        omega
      rw [InlinedString.isInlinedByte]
      simp only [decide_eq_true_eq]
      rw [hmax] at h ⊢
      constructor
      · intro hc
        omega
      · intro hc
        omega
  · have hle : value.length ≤ MAX_INLINED_STRING_LEN := by omega
    have hif : InlinedString.tryFrom value
        = Except.ok
            { payload := value ++ List.replicate (MAX_INLINED_STRING_LEN - value.length) 0
              len := InlinedString.new.len + value.length } := by
      unfold InlinedString.tryFrom
      rw [if_neg h]
    have hfrom : ConstString.fromBytes value
        = ConstString.inlined
            { payload := value ++ List.replicate (MAX_INLINED_STRING_LEN - value.length) 0
              len := InlinedString.new.len + value.length } := by
      unfold ConstString.fromBytes
      rw [hif]
    rw [hfrom]
    constructor
    · rw [ConstString.asStr, InlinedString.asStr, InlinedString.length]
      simp only [hnewlen]
      have hsub : 128 + value.length - 128 = value.length := by omega
      rw [hsub]
      exact List.take_left _ _
    · rw [ConstString.is_inlined, InlinedString.isInlinedByte]
      simp only [hnewlen, decide_eq_true_eq]
      constructor
      · intro _
        exact hle
      · intro _
        omega

/-- C8 witness: the two-byte string `hi` round-trips and is inlined. -/
theorem const_string_roundtrip_inlined_witness :
    ([104, 105] : List Nat).length < 2 ^ 63 ∧
    ((ConstString.fromBytes [104, 105]).asStr = [104, 105] ∧
      ((ConstString.fromBytes [104, 105]).is_inlined = true ↔
        ([104, 105] : List Nat).length ≤ MAX_INLINED_STRING_LEN)) :=
  ⟨by decide, const_string_roundtrip_inlined [104, 105] (by decide)⟩

/-! # Reference-counting map deserializer (src/data_model/src/rc_decode.rs)

`deserialize_map_with` drives serde over a map; the embedding starts from the
already-deserialized `(key, value)` entry sequence (an underlying
deserialization failure is outside the model, as are the serde plumbing
types).  The `BTreeMap` accumulator is embedded as an association list with
`insert` replacing an existing key and appending a new one, and the `FnMut`
optimizer `f` (which mutates key and value in place) as a function returning
the mutated pair.
-/

/-- BTreeMap insert on the association-list embedding: replace the entry with
an equal key, else append. -/
def mapInsert {K V : Type} [DecidableEq K] (m : List (K × V)) (k : K) (v : V) :
    List (K × V) :=
  if m.any fun p => decide (p.1 = k) then
    m.map fun p => if p.1 = k then (k, v) else p
  else m ++ [(k, v)]

/-- Entry loop of `RefCountingVisitor::visit_map` (rc_decode.rs 49-65): for
each entry reject when the key differs from `value.id()` (embedded as
`idOf`), otherwise apply the optimizer `f` and insert. -/
def visit_map {K V : Type} [DecidableEq K] (idOf : V → K) (f : K → V → K × V) :
    List (K × V) → List (K × V) → Except String (List (K × V))
  | acc, [] => Except.ok acc
  | acc, (id, value) :: rest =>
    if id ≠ idOf value then
      Except.error "Inconsistent map: key id differs from value id"
    else
      visit_map idOf f (mapInsert acc (f id value).1 (f id value).2) rest

/-- Rust `deserialize_map_with` (rc_decode.rs 22-33): run the visitor with an
empty accumulator. -/
def deserialize_map_with {K V : Type} [DecidableEq K] (idOf : V → K)
    (f : K → V → K × V) (entries : List (K × V)) : Except String (List (K × V)) :=
  visit_map idOf f [] entries

/-- When every entry is consistent the visitor succeeds with the insert-fold
of the optimized entries. -/
lemma visit_map_ok {K V : Type} [DecidableEq K] (idOf : V → K) (f : K → V → K × V) :
    ∀ (entries acc : List (K × V)),
      (∀ p ∈ entries, p.1 = idOf p.2) →
      visit_map idOf f acc entries
        = Except.ok (entries.foldl (fun m p => mapInsert m (f p.1 p.2).1 (f p.1 p.2).2) acc) := by
  intro entries
  induction entries with
  | nil => intro acc _; rfl
  | cons e rest ih =>
    intro acc hgood
    obtain ⟨id, value⟩ := e
    have h1 : id = idOf value := hgood (id, value) (by simp)
    rw [visit_map, if_neg (by simpa using h1)]
    rw [ih _ (fun p hp => hgood p (by simp [hp]))]
    rfl

/-- When some entry is inconsistent the visitor errors. -/
lemma visit_map_error {K V : Type} [DecidableEq K] (idOf : V → K) (f : K → V → K × V) :
    ∀ (entries acc : List (K × V)),
      (∃ p ∈ entries, p.1 ≠ idOf p.2) →
      ∃ e, visit_map idOf f acc entries = Except.error e := by
  intro entries
  induction entries with
  | nil => intro acc h; simp at h
  | cons hd rest ih =>
    intro acc h
    obtain ⟨id, value⟩ := hd
    by_cases h1 : id = idOf value
    · rw [visit_map, if_neg (by simpa using h1)]
      apply ih
      obtain ⟨p, hp, hpne⟩ := h
      rcases List.mem_cons.mp hp with heq | hmem
      · exfalso
        apply hpne
        rw [heq]
        exact h1
      · exact ⟨p, hmem, hpne⟩
    · rw [visit_map, if_pos (by simpa using h1)]
      exact ⟨_, rfl⟩

/-- Insertion preserves all-entries-consistent. -/
lemma mapInsert_all_good {K V : Type} [DecidableEq K] (idOf : V → K)
    (m : List (K × V)) (k : K) (v : V)
    (hm : ∀ p ∈ m, p.1 = idOf p.2) (hkv : k = idOf v) :
    ∀ p ∈ mapInsert m k v, p.1 = idOf p.2 := by
  intro p hp
  rw [mapInsert] at hp
  split at hp
  · rw [List.mem_map] at hp
    obtain ⟨q, hq, hqp⟩ := hp
    by_cases hqk : q.1 = k
    · rw [if_pos hqk] at hqp
      rw [← hqp]
      exact hkv
    · rw [if_neg hqk] at hqp
      rw [← hqp]
      exact hm q hq
  · rcases List.mem_append.mp hp with hmem | hmem
    · exact hm p hmem
    · simp at hmem
      rw [hmem]
      exact hkv

/-- The insert-fold preserves all-entries-consistent. -/
lemma foldl_insert_all_good {K V : Type} [DecidableEq K] (idOf : V → K)
    (f : K → V → K × V)
    (hf : ∀ k v, k = idOf v → (f k v).1 = idOf (f k v).2) :
    ∀ (entries acc : List (K × V)),
      (∀ p ∈ acc, p.1 = idOf p.2) →
      (∀ p ∈ entries, p.1 = idOf p.2) →
      ∀ p ∈ entries.foldl (fun m p => mapInsert m (f p.1 p.2).1 (f p.1 p.2).2) acc,
        p.1 = idOf p.2 := by
  intro entries
  induction entries with
  | nil => intro acc hacc _ p hp; exact hacc p hp
  | cons e rest ih =>
    intro acc hacc hgood p hp
    rw [List.foldl_cons] at hp
    exact ih _
      (mapInsert_all_good idOf _ _ _ hacc (hf e.1 e.2 (hgood e (by simp))))
      (fun q hq => hgood q (by simp [hq])) p hp

/-! # Claim C9: `deserialize_map_with` error condition and contents -/

/-- C9: `deserialize_map_with` errors exactly when some deserialized entry
has a key different from its value's id; on success the returned map is the
insert-fold of the entries with the optimizer applied to each, so whenever
the optimizer preserves the key-id relation every entry of the result
satisfies it. -/
theorem deserialize_map_with_spec {K V : Type} [DecidableEq K] (idOf : V → K)
    (f : K → V → K × V) (entries : List (K × V)) :
    ((∃ e, deserialize_map_with idOf f entries = Except.error e) ↔
      ∃ p ∈ entries, p.1 ≠ idOf p.2) ∧
    ((∀ p ∈ entries, p.1 = idOf p.2) →
      deserialize_map_with idOf f entries
        = Except.ok (entries.foldl
            (fun m p => mapInsert m (f p.1 p.2).1 (f p.1 p.2).2) [])) ∧
    ((∀ k v, k = idOf v → (f k v).1 = idOf (f k v).2) →
      ∀ m, deserialize_map_with idOf f entries = Except.ok m →
        ∀ p ∈ m, p.1 = idOf p.2) := by
  refine ⟨⟨?_, ?_⟩, ?_, ?_⟩
  · intro he2
    obtain ⟨e, he⟩ := he2
    by_contra hall
    push_neg at hall
    rw [deserialize_map_with, visit_map_ok idOf f entries [] hall] at he
    exact Except.noConfusion he
  · intro hbad
    exact visit_map_error idOf f entries [] hbad
  · intro hgood
    exact visit_map_ok idOf f entries [] hgood
  · intro hf m hm p hp
    by_cases hgood : ∀ p ∈ entries, p.1 = idOf p.2
    · rw [deserialize_map_with, visit_map_ok idOf f entries [] hgood] at hm
      injection hm with hm
      subst hm
      exact foldl_insert_all_good idOf f hf entries [] (by simp) hgood p hp
    · push_neg at hgood
      obtain ⟨e, he⟩ := visit_map_error idOf f entries []
        (by obtain ⟨q, hq1, hq2⟩ := hgood; exact ⟨q, hq1, hq2⟩)
      rw [deserialize_map_with, he] at hm
      exact Except.noConfusion hm


/-- C9 witness: over `Nat` entries with identity id and an optimizer that
doubles the value and its key, the specification instance holds for a
concrete two-entry input. -/
theorem deserialize_map_with_spec_witness :
    ((∃ e, deserialize_map_with (id : Nat → Nat) (fun k v => (2 * k, 2 * v)) [(1, 1), (2, 2)]
        = Except.error e) ↔
      ∃ p ∈ [((1 : Nat), (1 : Nat)), (2, 2)], p.1 ≠ id p.2) ∧
    ((∀ p ∈ [((1 : Nat), (1 : Nat)), (2, 2)], p.1 = id p.2) →
      deserialize_map_with (id : Nat → Nat) (fun k v => (2 * k, 2 * v)) [(1, 1), (2, 2)]
        = Except.ok ([((1 : Nat), (1 : Nat)), (2, 2)].foldl
            (fun m p => mapInsert m ((fun (k v : Nat) => (2 * k, 2 * v)) p.1 p.2).1
              ((fun (k v : Nat) => (2 * k, 2 * v)) p.1 p.2).2) [])) ∧
    ((∀ k v : Nat, k = id v →
        ((fun (k v : Nat) => (2 * k, 2 * v)) k v).1
          = id ((fun (k v : Nat) => (2 * k, 2 * v)) k v).2) →
      ∀ m, deserialize_map_with (id : Nat → Nat) (fun k v => (2 * k, 2 * v)) [(1, 1), (2, 2)]
          = Except.ok m →
        ∀ p ∈ m, p.1 = id p.2) :=
  deserialize_map_with_spec (id : Nat → Nat) (fun k v => (2 * k, 2 * v)) [(1, 1), (2, 2)]

/-! # The forbid_bob runtime validator (src/runtime_validators/forbid_bob)

Account ids are `name@domain`; `"bob@wonderland".parse()` splits at the `@`
separator (the embedded parser keeps just enough of the external `FromStr`
implementation to give the literal its meaning: split at the first `@`).
`dbg_expect` would trap on a parse failure; the theorem proves the parse of
the literal succeeds, so the trap arm (embedded as `Verdict.pass` and proved
dead) is never taken.
-/

/-- Account identity: name and domain. -/
structure AccountId where
  name : List Char
  domain : List Char
deriving DecidableEq, Repr

/-- Verdict returned by a runtime validator. -/
inductive Verdict where
  | pass
  | deny (reason : List Char)
deriving DecidableEq, Repr

/-- Payload of a signed transaction, reduced to the field the validator
reads. -/
structure TxPayload where
  account_id : AccountId
deriving DecidableEq, Repr

/-- Signed transaction as seen by the validator entrypoint. -/
structure SignedTransaction where
  payload : TxPayload
deriving DecidableEq, Repr

/-- Split a character list at the first `@`. -/
def splitAtSep : List Char → Option (List Char × List Char)
  | [] => none
  | c :: rest =>
    if c = '@' then some ([], rest)
    else
      match splitAtSep rest with
      | some (a, b) => some (c :: a, b)
      | none => none

/-- Parse `name@domain` into an `AccountId`. -/
def parseAccountId (s : List Char) : Option AccountId :=
  match splitAtSep s with
  | some (n, d) => some { name := n, domain := d }
  | none => none

/-- The account id the validator denies. -/
def bobAccountId : AccountId :=
  { name := "bob".toList, domain := "wonderland".toList }

/-- The fixed denial message of the validator. -/
def denyMessage : List Char :=
  "Bob from Wonderland is not allowed to do anything".toList

/-- The `validate` entrypoint (forbid_bob/src/lib.rs 13-24): deny when the
transaction's account id equals the parse of `"bob@wonderland"`, else pass.
The `none` arm stands for the `dbg_expect` trap and is proved dead below. -/
def validate (tx : SignedTransaction) : Verdict :=
  match parseAccountId "bob@wonderland".toList with
  | some bob =>
    if tx.payload.account_id = bob then Verdict.deny denyMessage
    else Verdict.pass
  | none => Verdict.pass

/-! # Claim C10: forbid_bob denies exactly bob@wonderland -/

/-- C10: the parse of `"bob@wonderland"` succeeds with the expected id, and
`validate` returns `Deny` with the fixed message exactly on transactions
whose account id is that id, returning `Pass` on every other account id. -/
theorem forbid_bob_validate_spec (tx : SignedTransaction) :
    parseAccountId "bob@wonderland".toList = some bobAccountId ∧
    (validate tx = Verdict.deny denyMessage ↔ tx.payload.account_id = bobAccountId) ∧
    (tx.payload.account_id ≠ bobAccountId → validate tx = Verdict.pass) := by
  have hparse : parseAccountId "bob@wonderland".toList = some bobAccountId := by decide
  refine ⟨hparse, ?_, ?_⟩
  · simp only [validate, hparse]
    by_cases h : tx.payload.account_id = bobAccountId
    · rw [if_pos h]
      simp [h]
    · rw [if_neg h]
      simp [h]
  · intro h
    simp only [validate, hparse]
    rw [if_neg h]
